import Mathlib

/-!
Shallow embedding of the ssb-bfe codec (`src/index.js`).

Buffers are modelled as `List Nat` (one entry per byte), JS strings as Lean
`String` manipulated through their `.data` character lists, and the dynamic
JS values flowing through `encode`/`decode` as the closed sum type `Value`.
Thrown JS errors become `Except Err` results, one `Err` constructor per
distinct error site of `src/index.js`.

`index.js` pulls the registry from `./bfe.json` and the helpers
`decorateBFE`, `definitionsToDict`, `findClassicTypeFormat` from `./util`;
neither file is under `src/`, so those parts are modelled from the spec and
are marked as such in their doc comments.  Everything else is translated
directly from `src/index.js`.
-/

namespace BFE

/-- A decorated format definition: name, one-byte code, optional suffix
(spec §3, FormatDefinition). -/
structure FormatDef where
  format : String
  code : Nat
  suffix : Option String
deriving DecidableEq, Repr

/-- A decorated type definition: name, one-byte code, optional sigil, ordered
formats (spec §3, TypeDefinition). -/
structure TypeDef where
  type : String
  code : Nat
  sigil : Option String
  formats : List FormatDef
deriving DecidableEq, Repr

/-- Modelled from the spec: the `classic` msg format, code 0, suffix
`.sha256` (spec §8 concrete scenario). -/
def msgClassicFmt : FormatDef :=
  { format := "classic", code := 0, suffix := some ".sha256" }

/-- Modelled from the spec: the `bendybutt-v1` msg format, code 4, suffix
`.bbmsg-v1` (spec §8 concrete scenario). -/
def msgBendyFmt : FormatDef :=
  { format := "bendybutt-v1", code := 4, suffix := some ".bbmsg-v1" }

/-- Modelled from the spec: the `msg` type, code 1, sigil `%` (spec §8
concrete scenario). -/
def msgType : TypeDef :=
  { type := "msg", code := 1, sigil := some "%",
    formats := [msgClassicFmt, msgBendyFmt] }

/-- Modelled from the spec: the sigil-less `generic` type with the
`UTF8 string`, `boolean` and `nil` formats required by §4.3/§4.4; the spec
does not pin its byte codes, modelled here as type code 6 with format codes
0/1/2. -/
def genericType : TypeDef :=
  { type := "generic", code := 6, sigil := none,
    formats :=
      [ { format := "UTF8 string", code := 0, suffix := none },
        { format := "boolean", code := 1, suffix := none },
        { format := "nil", code := 2, suffix := none } ] }

/-- Modelled from the spec: the registry contents (`bfe.json`) and the
decoration step (`decorateBFE` in `util.js`) are not under `src/`; the table
holds the types the spec names, in table order (spec §3, §4.1, §8). -/
def TYPES : List TypeDef := [msgType, genericType]

/-- `toTF` of `index.js`: builds the two-byte (type code, format code) buffer
for a named type/format via the name-indexed registry (`NAMED_TYPES`).  The
JS lookups always succeed for the names used; missing names are mapped to
`[]` here where JS would crash. -/
def toTF (tname fname : String) : List Nat :=
  match TYPES.find? (fun t => t.type.data == tname.data) with
  | some t =>
      match t.formats.find? (fun f => f.format.data == fname.data) with
      | some f => [t.code, f.code]
      | none => []
  | none => []

/-- `STRING_TF` of `index.js`. -/
def STRING_TF : List Nat := toTF "generic" "UTF8 string"

/-- `NIL_TF` of `index.js`. -/
def NIL_TF : List Nat := toTF "generic" "nil"

namespace BOOL

/-- `BOOL.TF` of `index.js`. -/
def TF : List Nat := toTF "generic" "boolean"

/-- `BOOL.TRUE` of `index.js`: `Buffer.from([1])`. -/
def TRUE : List Nat := [1]

/-- `BOOL.FALSE` of `index.js`: `Buffer.from([0])`. -/
def FALSE : List Nat := [0]

end BOOL

/-! ### Base64 (Node `Buffer.from(·, 'base64')` / `buf.toString('base64')`) -/

/-- Value of one base64 alphabet character, `none` for characters outside the
alphabet (padding `=` included). -/
def b64Val (c : Char) : Option Nat :=
  if 'A' ≤ c ∧ c ≤ 'Z' then some (c.toNat - 65)
  else if 'a' ≤ c ∧ c ≤ 'z' then some (c.toNat - 97 + 26)
  else if '0' ≤ c ∧ c ≤ '9' then some (c.toNat - 48 + 52)
  else if c = '+' then some 62
  else if c = '/' then some 63
  else none

/-- Base64 alphabet character for a sextet value. -/
def b64Chr (n : Nat) : Char :=
  if n < 26 then Char.ofNat (65 + n)
  else if n < 52 then Char.ofNat (97 + (n - 26))
  else if n < 62 then Char.ofNat (48 + (n - 52))
  else if n = 62 then '+'
  else '/'

/-- Reassemble bytes from a list of sextet values, groups of four at a time;
a trailing group of two or three sextets yields one or two bytes, a lone
trailing sextet is dropped — mirroring Node's tolerant base64 decoder. -/
def b64DecodeVals : List Nat → List Nat
  | v0 :: v1 :: v2 :: v3 :: rest =>
      (v0 * 4 + v1 / 16) :: (v1 % 16 * 16 + v2 / 4) :: (v2 % 4 * 64 + v3) ::
        b64DecodeVals rest
  | [v0, v1, v2] => [v0 * 4 + v1 / 16, v1 % 16 * 16 + v2 / 4]
  | [v0, v1] => [v0 * 4 + v1 / 16]
  | _ => []

/-- Node's `Buffer.from(s, 'base64')`: characters outside the alphabet are
skipped, then sextets are reassembled into bytes. -/
def base64Decode (s : List Char) : List Nat :=
  b64DecodeVals (s.filterMap b64Val)

/-- Node's `buf.toString('base64')`: standard padded base64. -/
def b64EncodeBytes : List Nat → List Char
  | a :: b :: c :: rest =>
      b64Chr (a / 4) :: b64Chr (a % 4 * 16 + b / 16) ::
        b64Chr (b % 16 * 4 + c / 64) :: b64Chr (c % 64) :: b64EncodeBytes rest
  | [a, b] => [b64Chr (a / 4), b64Chr (a % 4 * 16 + b / 16), b64Chr (b % 16 * 4), '=']
  | [a] => [b64Chr (a / 4), b64Chr (a % 4 * 16), '=', '=']
  | [] => []

/-! ### UTF-8 (Node `Buffer.from(·, 'utf8')` / `buf.toString('utf8')`) -/

/-- UTF-8 bytes of one Unicode scalar value. -/
def utf8EncodeChar (c : Char) : List Nat :=
  let n := c.toNat
  if n < 0x80 then [n]
  else if n < 0x800 then [0xC0 + n / 64, 0x80 + n % 64]
  else if n < 0x10000 then [0xE0 + n / 4096, 0x80 + n / 64 % 64, 0x80 + n % 64]
  else [0xF0 + n / 262144, 0x80 + n / 4096 % 64, 0x80 + n / 64 % 64, 0x80 + n % 64]

/-- UTF-8 bytes of a character sequence (`Buffer.from(s, 'utf8')`). -/
def utf8Encode : List Char → List Nat
  | [] => []
  | c :: cs => utf8EncodeChar c ++ utf8Encode cs

/-- UTF-8 decoding state machine (`buf.toString('utf8')`): arguments are the
remaining bytes, the number of continuation bytes still expected, and the
accumulated scalar value.  Malformed input (never produced by `utf8Encode`)
yields U+FFFD replacement characters, as Node does. -/
def utf8Decode : List Nat → Nat → Nat → List Char
  | [], _, _ => []
  | b :: bs, 0, _ =>
      if b < 0x80 then Char.ofNat b :: utf8Decode bs 0 0
      else if b < 0xC0 then Char.ofNat 0xFFFD :: utf8Decode bs 0 0
      else if b < 0xE0 then utf8Decode bs 1 (b - 0xC0)
      else if b < 0xF0 then utf8Decode bs 2 (b - 0xE0)
      else utf8Decode bs 3 (b - 0xF0)
  | b :: bs, 1, acc =>
      if 0x80 ≤ b ∧ b < 0xC0 then
        Char.ofNat (acc * 64 + (b - 0x80)) :: utf8Decode bs 0 0
      else Char.ofNat 0xFFFD :: utf8Decode bs 0 0
  | b :: bs, p + 2, acc =>
      if 0x80 ≤ b ∧ b < 0xC0 then utf8Decode bs (p + 1) (acc * 64 + (b - 0x80))
      else Char.ofNat 0xFFFD :: utf8Decode bs 0 0

/-! ### Values, errors -/

/-- The universal value tree flowing through `encode`/`decode`: JS
`undefined`, `Buffer`, safe integer, string, boolean, `null`, array, and
plain object (association list preserving key order, as JS `for..in` does). -/
inductive Value where
  | undef
  | bytes (bs : List Nat)
  | int (n : Int)
  | str (s : String)
  | bool (b : Bool)
  | null
  | arr (xs : List Value)
  | obj (kvs : List (String × Value))
deriving Repr

/-- JS `y === undefined` test used in the array/object recursions. -/
def Value.isUndef : Value → Bool
  | .undef => true
  | _ => false

/-- One constructor per distinct `throw new Error(...)` site of
`src/index.js`. -/
inductive Err where
  | unknownFormat (typeName : String)
  | missingTypeFormatFields
  | invalidBoolean
  | noDecoder (typeName formatName : String)
  | unknownTypeFormat
  | cannotDecode
deriving DecidableEq, Repr

/-! ### Classic matcher and encoder -/

/-- Modelled from the spec: `findClassicTypeFormat` lives in `util.js`, which
is not under `src/`.  Spec §4.2: search types in table order; a type matches
if it declares a sigil that is a prefix of the input (types without sigils
are skipped); among the matching type's formats, in table order, a format
matches if it declares a suffix that is a suffix of the input after
stripping the sigil; first match wins.  Returns the matched type (if any)
and matched format (if any). -/
def findClassicTypeFormat (input : String) (types : List TypeDef) :
    Option TypeDef × Option FormatDef :=
  match types.find? (fun t =>
      match t.sigil with
      | some sg => sg.data.isPrefixOf input.data
      | none => false) with
  | none => (none, none)
  | some t =>
      let rest := input.data.drop (t.sigil.getD "").length
      (some t,
        t.formats.find? (fun f =>
          match f.suffix with
          | some suf => suf.data.isSuffixOf rest
          | none => false))

/-- Payload characters taken by `encoder.sigilSuffix`: JS drops one leading
character when the type has a sigil (`data.slice(1)`) and the suffix's
length from the end when the format has one (`data.slice(0, -len)`). -/
def sigilSuffixData (input : String) (t : TypeDef) (f : FormatDef) : List Char :=
  let data := input.data
  let data := if t.sigil.isSome then data.drop 1 else data
  match f.suffix with
  | some suf => data.take (data.length - suf.length)
  | none => data

/-- `encoder.boolean` of `index.js`. -/
def encoder.boolean (input : Bool) : List Nat :=
  BOOL.TF ++ (if input then BOOL.TRUE else BOOL.FALSE)

/-- `encoder.sigilSuffix` of `index.js`: `[type.code, format.code,
base64-decoded payload]`. -/
def encoder.sigilSuffix (input : String) (t : TypeDef) (f : FormatDef) : List Nat :=
  t.code :: f.code :: base64Decode (sigilSuffixData input t f)

/-- `encoder.string` of `index.js`. -/
def encoder.string (input : String) : List Nat :=
  STRING_TF ++ utf8Encode input.data

/-- `encoder.nil` of `index.js` (no data bytes). -/
def encoder.nil : List Nat := NIL_TF

/-! `encode` of `index.js`, together with its array (`input.map`) and object
(`for key in input`) recursions. -/
mutual

def encode : Value → Except Err Value
  | .undef => .ok .undef
  | .bytes bs => .ok (.bytes bs)
  | .int n => .ok (.int n)
  | .str s =>
      match findClassicTypeFormat s TYPES with
      | (some t, some f) => .ok (.bytes (encoder.sigilSuffix s t f))
      | (some t, none) => .error (.unknownFormat t.type)
      | (none, _) => .ok (.bytes (encoder.string s))
  | .bool b => .ok (.bytes (encoder.boolean b))
  | .null => .ok (.bytes encoder.nil)
  | .arr xs => (encodeList xs).map .arr
  | .obj kvs => (encodeObj kvs).map .obj

def encodeList : List Value → Except Err (List Value)
  | [] => .ok []
  | x :: xs => do
      let y ← encode x
      let ys ← encodeList xs
      pure ((if y.isUndef then .bytes encoder.nil else y) :: ys)

def encodeObj : List (String × Value) → Except Err (List (String × Value))
  | [] => .ok []
  | (k, v) :: kvs => do
      let y ← encode v
      let ys ← encodeObj kvs
      pure (if y.isUndef then ys else (k, y) :: ys)

end

/-! ### Decoder -/

/-- `decoder.sigilSuffix` of `index.js`: sigil (or empty), base64 of the
payload bytes, suffix (or empty). -/
def decoder.sigilSuffix (input : List Nat) (t : TypeDef) (f : FormatDef) : String :=
  ⟨(t.sigil.getD "").data ++ b64EncodeBytes (input.drop 2) ++ (f.suffix.getD "").data⟩

/-- `decoder.bool` of `index.js`.  The source guard `if (input.size > 3)
throw ...` never fires: a Node `Buffer` has `.length` but no `.size`, so the
JS comparison is `undefined > 3`, which is `false`; the guard is therefore
omitted here and only byte 2 (`input.slice(2, 3)`) is inspected. -/
def decoder.bool (input : List Nat) : Except Err Value :=
  if (input.drop 2).take 1 = BOOL.FALSE then .ok (.bool false)
  else if (input.drop 2).take 1 = BOOL.TRUE then .ok (.bool true)
  else .error .invalidBoolean

/-- `decoder.string` of `index.js`. -/
def decoder.string (input : List Nat) : String :=
  ⟨utf8Decode (input.drop 2) 0 0⟩

/-- The `Buffer.isBuffer(input)` branch of `decode` in `index.js`. -/
def decodeBuf (input : List Nat) : Except Err Value :=
  if input.length < 2 then .error .missingTypeFormatFields
  else if input = NIL_TF then .ok .null
  else if input.take 2 = BOOL.TF then decoder.bool input
  else if input.take 2 = STRING_TF then .ok (.str (decoder.string input))
  else
    match TYPES.find? (fun t => input.take 1 == [t.code]) with
    | some t =>
        match t.formats.find? (fun f => (input.drop 1).take 1 == [f.code]) with
        | some f =>
            if t.sigil.isSome || f.suffix.isSome then
              .ok (.str (decoder.sigilSuffix input t f))
            else .error (.noDecoder t.type f.format)
        | none => .error (.unknownFormat t.type)
    | none => .error .unknownTypeFormat

/-! `decode` of `index.js`, together with its array and object recursions.
JS values that reach the trailing `throw` (strings, booleans, `undefined`)
map to `Err.cannotDecode`. -/
mutual

def decode : Value → Except Err Value
  | .null => .ok .null
  | .int n => .ok (.int n)
  | .bytes input => decodeBuf input
  | .arr xs => (decodeList xs).map .arr
  | .obj kvs => (decodeObj kvs).map .obj
  | .undef => .error .cannotDecode
  | .str _ => .error .cannotDecode
  | .bool _ => .error .cannotDecode

def decodeList : List Value → Except Err (List Value)
  | [] => .ok []
  | x :: xs => do
      let y ← decode x
      let ys ← decodeList xs
      pure (y :: ys)

def decodeObj : List (String × Value) → Except Err (List (String × Value))
  | [] => .ok []
  | (k, v) :: kvs => do
      let y ← decode v
      let ys ← decodeObj kvs
      pure ((k, y) :: ys)

end

/-- The round trip `decode(encode(v))` of spec §8. -/
def roundTrip (v : Value) : Except Err Value :=
  (encode v).bind decode

/-- The claim's description of the classic payload: the substring of the
input strictly between the sigil and the suffix. -/
def betweenSigilSuffix (s : String) (t : TypeDef) (f : FormatDef) : List Char :=
  let rest := s.data.drop (t.sigil.getD "").length
  rest.take (rest.length - (f.suffix.getD "").length)

/-- A character sequence is in canonical base64 form when re-encoding its
decoded bytes reproduces it exactly. -/
def canonicalB64 (d : List Char) : Bool :=
  b64EncodeBytes (base64Decode d) == d

/-! The value domain of the round-trip claim, as amended: integers, booleans,
null, classic strings whose extracted payload is canonical base64,
unrecognized strings, and arbitrarily nested sequences/mappings of these.
`undefined` is excluded (`encode` maps it to itself, which `decode`
rejects), raw bytes are excluded (`encode` passes them through and `decode`
reinterprets them as a tag), and non-canonical classic payloads are excluded
(base64 decoding loses the non-canonical spelling). -/
mutual

def goodB : Value → Bool
  | .undef => false
  | .bytes _ => false
  | .int _ => true
  | .str s =>
      match findClassicTypeFormat s TYPES with
      | (some t, some f) => canonicalB64 (sigilSuffixData s t f)
      | (some _, none) => false
      | (none, _) => true
  | .bool _ => true
  | .null => true
  | .arr xs => goodListB xs
  | .obj kvs => goodObjB kvs

def goodListB : List Value → Bool
  | [] => true
  | x :: xs => goodB x && goodListB xs

def goodObjB : List (String × Value) → Bool
  | [] => true
  | (_, v) :: kvs => goodB v && goodObjB kvs

end

end BFE

section Sanity
open BFE

example : STRING_TF = [6, 0] := rfl
example : NIL_TF = [6, 2] := rfl
example : BOOL.TF = [6, 1] := rfl
example : encode (.bool true) = .ok (.bytes [6, 1, 1]) := rfl
example : encode .null = .ok (.bytes [6, 2]) := rfl
example : decode (.bytes [6, 2]) = .ok .null := rfl
example : decode (.bytes [6, 1, 0]) = .ok (.bool false) := rfl
example : encode (.str "hi") = .ok (.bytes [6, 0, 104, 105]) := rfl
example : decode (.bytes [6, 0, 104, 105]) = .ok (.str "hi") := rfl
example :
    encode (.str "%AA==.sha256") = .ok (.bytes [1, 0, 0]) := rfl
example : decode (.bytes [1, 0, 0]) = .ok (.str "%AA==.sha256") := rfl
example : roundTrip (.str "%A.sha256") = .ok (.str "%.sha256") := rfl
example : roundTrip (.bytes [0]) = .error .missingTypeFormatFields := rfl
example : decode (.bytes [6, 1, 0, 0]) = .ok (.bool false) := rfl
example : decode (.bytes [6, 2, 9]) = .error (.noDecoder "generic" "nil") := rfl
example :
    roundTrip (.str "%HZVnEzm0NgoSVfG0Hx4gMFbMMHhFvhJsG2zK/pijYII=.sha256") =
      .ok (.str "%HZVnEzm0NgoSVfG0Hx4gMFbMMHhFvhJsG2zK/pijYII=.sha256") := rfl
example :
    roundTrip (.str "%HZVnEzm0NgoSVfG0Hx4gMFbMMHhFvhJsG2zK/pijYII=.bbmsg-v1") =
      .ok (.str "%HZVnEzm0NgoSVfG0Hx4gMFbMMHhFvhJsG2zK/pijYII=.bbmsg-v1") := rfl

end Sanity

namespace BFE

/-! ### Basic tag facts -/

theorem STRING_TF_eq : STRING_TF = [6, 0] := rfl

theorem NIL_TF_eq : NIL_TF = [6, 2] := rfl

theorem BOOL_TF_eq : BOOL.TF = [6, 1] := rfl

/-- Unfolding `decode` on a buffer. -/
theorem decode_bytes (bs : List Nat) : decode (.bytes bs) = decodeBuf bs := rfl

/-! ### C2 / C6 / C7 / C8 / C9 -/

/-- C2: the claim says a boolean-tagged buffer with a payload longer than one
byte must fail with InvalidBoolean.  The code intends this (its error message
reads "boolean BFE must be 3 bytes") but tests `input.size`, a property a
Node `Buffer` does not have, so the length guard never fires and `decode`
accepts a boolean tag with the two-byte payload `[0, 0]`, returning `false`.
This theorem evaluates the code at that failing input. -/
theorem decode_boolean_long_payload_eval :
    decode (.bytes (BOOL.TF ++ [0, 0])) = .ok (.bool false) := rfl

/-- C6: decoding any buffer of fewer than two bytes (the empty buffer and
every one-byte buffer included) fails with the MalformedTag error. -/
theorem decode_short_buffer_fails (bs : List Nat) (h : bs.length < 2) :
    decode (.bytes bs) = .error .missingTypeFormatFields := by
  rw [decode_bytes, decodeBuf, if_pos h]

/-- Witness for C6 at the one-byte buffer `[5]`. -/
theorem decode_short_buffer_fails_witness :
    ([5] : List Nat).length < 2 ∧
      decode (.bytes [5]) = .error .missingTypeFormatFields :=
  ⟨by decide, decode_short_buffer_fails [5] (by decide)⟩

/-- C7: for every boolean `b`, `encode` produces exactly three bytes — the
generic type code, the boolean format code, and a final byte that is 1 for
`true` and 0 for `false`. -/
theorem encode_boolean_three_bytes (b : Bool) :
    encode (.bool b) =
      .ok (.bytes (toTF "generic" "boolean" ++ [if b then 1 else 0])) ∧
    (toTF "generic" "boolean" ++ [if b then 1 else 0]).length = 3 := by
  cases b <;> exact ⟨rfl, rfl⟩

/-- C8: `encode null` is exactly the two-byte `[generic, nil]` tag with no
payload, and `decode` of exactly that buffer returns null. -/
theorem encode_null_decode_nil :
    encode .null = .ok (.bytes (toTF "generic" "nil")) ∧
    (toTF "generic" "nil").length = 2 ∧
    decode (.bytes (toTF "generic" "nil")) = .ok .null :=
  ⟨rfl, rfl, rfl⟩

/-- C9: a buffer longer than two bytes whose first two bytes equal the nil
tag does not decode to null: the nil comparison is whole-buffer equality, so
the buffer falls through to the registry lookup, finds the generic type and
nil format (no sigil, no suffix), and fails with the NoDecoder error. -/
theorem decode_nil_tag_with_extra_bytes (c : Nat) (cs : List Nat) :
    decode (.bytes (NIL_TF ++ c :: cs)) = .error (.noDecoder "generic" "nil") := by
  rw [decode_bytes, NIL_TF_eq]
  simp [decodeBuf, decoder.bool, TYPES, msgType, genericType, List.find?,
    NIL_TF_eq, BOOL_TF_eq, STRING_TF_eq]

end BFE

namespace BFE

/-! ### Classic matcher characterization over the modelled registry -/

theorem percent_data : "%".data = ['%'] := rfl

theorem percent_length : "%".length = 1 := rfl

/-- The msg format scan, in table order: `.sha256` first, `.bbmsg-v1` second. -/
theorem msg_format_find (r : List Char) :
    msgType.formats.find? (fun f =>
        match f.suffix with
        | some suf => suf.data.isSuffixOf r
        | none => false) =
      if ".sha256".data.isSuffixOf r then some msgClassicFmt
      else if ".bbmsg-v1".data.isSuffixOf r then some msgBendyFmt
      else none := by
  by_cases h1 : ".sha256".data.isSuffixOf r <;>
    by_cases h2 : ".bbmsg-v1".data.isSuffixOf r <;>
      simp [msgType, msgClassicFmt, msgBendyFmt, List.find?, h1, h2]

/-- On the modelled registry, the classic matcher matches exactly the strings
starting with the `%` sigil, and then scans the msg formats in table order. -/
theorem findClassic_TYPES (s : String) :
    findClassicTypeFormat s TYPES =
      if ['%'].isPrefixOf s.data then
        (some msgType,
          msgType.formats.find? (fun f =>
            match f.suffix with
            | some suf => suf.data.isSuffixOf (s.data.drop 1)
            | none => false))
      else (none, none) := by
  by_cases h : ['%'].isPrefixOf s.data
  all_goals
    simp only [findClassicTypeFormat, TYPES, List.find?, percent_data,
      percent_length, msgType, genericType, h, Bool.false_eq_true,
      if_true, if_false, reduceCtorEq]
  all_goals rfl

/-- When the matcher returns a type and a format, the type is the msg type,
the format is one of its two formats, and the input starts with `%`. -/
theorem findClassic_TYPES_some (s : String) (t : TypeDef) (f : FormatDef)
    (h : findClassicTypeFormat s TYPES = (some t, some f)) :
    t = msgType ∧ (f = msgClassicFmt ∨ f = msgBendyFmt) ∧
      ['%'].isPrefixOf s.data = true := by
  rw [findClassic_TYPES] at h
  by_cases hp : ['%'].isPrefixOf s.data
  · rw [if_pos hp] at h
    have ht : some msgType = some t := congrArg Prod.fst h
    have hf := congrArg Prod.snd h
    simp only at hf
    rw [msg_format_find] at hf
    refine ⟨(Option.some.inj ht).symm, ?_, hp⟩
    split_ifs at hf with h1 h2
    all_goals first
      | exact Or.inl (Option.some.inj hf).symm
      | exact Or.inr (Option.some.inj hf).symm
  · rw [if_neg hp] at h
    exact absurd (congrArg Prod.fst h) (by simp)

end BFE

namespace BFE

/-! ### C3 / C4 -/

/-- C3: for every string, `encode` runs the classic matcher; on a type and
format match it emits the type code, the format code, and the base64-decoded
payload between sigil and suffix; on a type match without a format match it
fails with UnknownFormat; with no sigil match it emits the generic UTF8
string tag followed by the string's UTF-8 bytes. -/
theorem encode_string_dispatch (s : String) :
    encode (.str s) =
      match findClassicTypeFormat s TYPES with
      | (some t, some f) =>
          .ok (.bytes (t.code :: f.code :: base64Decode (betweenSigilSuffix s t f)))
      | (some t, none) => .error (.unknownFormat t.type)
      | (none, _) => .ok (.bytes (STRING_TF ++ utf8Encode s.data)) := by
  rcases h : findClassicTypeFormat s TYPES with ⟨_ | t, _ | f⟩ <;>
    simp only [encode, h] <;> try rfl
  obtain ⟨rfl, hf, -⟩ := findClassic_TYPES_some s t f h
  rcases hf with rfl | rfl <;> rfl

/-- C4: a tagged buffer of two or more bytes that carries none of the nil,
boolean, or string tags is decoded through the registry: type looked up by
byte 0 (UnknownTag if absent), then format by byte 1 within that type
(UnknownFormat if absent); a sigil or suffix yields the string
`sigil + base64(payload) + suffix`, and otherwise decoding fails with the
NoDecoder error. -/
theorem decode_registry_lookup (b0 b1 : Nat) (rest : List Nat)
    (hnil : [b0, b1] ≠ NIL_TF) (hbool : [b0, b1] ≠ BOOL.TF)
    (hstr : [b0, b1] ≠ STRING_TF) :
    decode (.bytes (b0 :: b1 :: rest)) =
      match TYPES.find? (fun t => t.code == b0) with
      | none => .error .unknownTypeFormat
      | some t =>
          match t.formats.find? (fun f => f.code == b1) with
          | none => .error (.unknownFormat t.type)
          | some f =>
              if t.sigil.isSome || f.suffix.isSome then
                .ok (.str ⟨(t.sigil.getD "").data ++ b64EncodeBytes rest ++
                  (f.suffix.getD "").data⟩)
              else .error (.noDecoder t.type f.format) := by
  rw [decode_bytes, decodeBuf]
  rw [if_neg (by simp), if_neg ?hn, if_neg ?hb, if_neg ?hs]
  case hn =>
    rw [NIL_TF_eq] at hnil ⊢
    intro heq
    cases heq
    exact hnil rfl
  case hb =>
    intro heq
    exact hbool (by simpa using heq)
  case hs =>
    intro heq
    exact hstr (by simpa using heq)
  by_cases h1 : b0 = 1
  · subst h1
    simp only [TYPES, List.find?, msgType, genericType, msgClassicFmt,
      msgBendyFmt, List.take, List.drop]
    by_cases hf0 : b1 = 0
    · subst hf0; rfl
    · by_cases hf4 : b1 = 4
      · subst hf4; rfl
      · simp [hf0, hf4, Ne.symm hf0, Ne.symm hf4]
  · by_cases h6 : b0 = 6
    · subst h6
      have hb1 : b1 ≠ 0 := fun h => hstr (by simp [h, STRING_TF_eq])
      have hb2 : b1 ≠ 1 := fun h => hbool (by simp [h, BOOL_TF_eq])
      have hb3 : b1 ≠ 2 := fun h => hnil (by simp [h, NIL_TF_eq])
      have e1 : (b1 == 0) = false := beq_eq_false_iff_ne.mpr hb1
      have e2 : (b1 == 1) = false := beq_eq_false_iff_ne.mpr hb2
      have e3 : (b1 == 2) = false := beq_eq_false_iff_ne.mpr hb3
      have e1' : (0 == b1) = false := beq_eq_false_iff_ne.mpr (Ne.symm hb1)
      have e2' : (1 == b1) = false := beq_eq_false_iff_ne.mpr (Ne.symm hb2)
      have e3' : (2 == b1) = false := beq_eq_false_iff_ne.mpr (Ne.symm hb3)
      simp [TYPES, List.find?, msgType, genericType, e1, e2, e3, e1', e2', e3']
    · have e1 : (b0 == 1) = false := beq_eq_false_iff_ne.mpr h1
      have e6 : (b0 == 6) = false := beq_eq_false_iff_ne.mpr h6
      have e1' : (1 == b0) = false := beq_eq_false_iff_ne.mpr (Ne.symm h1)
      have e6' : (6 == b0) = false := beq_eq_false_iff_ne.mpr (Ne.symm h6)
      simp [TYPES, List.find?, msgType, genericType, e1, e6, e1', e6']

/-- Witness for C4 at the buffer `[1, 0, 0]` (msg type, classic format, one
payload byte 0), which decodes to the string `%AA==.sha256`. -/
theorem decode_registry_lookup_witness :
    decode (.bytes [1, 0, 0]) = .ok (.str "%AA==.sha256") :=
  (decode_registry_lookup 1 0 [0] (by decide) (by decide) (by decide)).trans rfl

end BFE

namespace BFE

/-! ### Except plumbing and an induction principle for values -/

theorem bind_ok_eq {α β : Type} (a : α) (f : α → Except Err β) :
    ((.ok a : Except Err α) >>= f) = f a := rfl

theorem bind_error_eq {α β : Type} (e : Err) (f : α → Except Err β) :
    ((.error e : Except Err α) >>= f) = .error e := rfl

theorem map_ok_eq {α β : Type} (f : α → β) (a : α) :
    ((.ok a : Except Err α).map f) = .ok (f a) := rfl

theorem map_error_eq {α β : Type} (f : α → β) (e : Err) :
    ((.error e : Except Err α).map f) = .error e := rfl

theorem pure_eq {α : Type} (a : α) : (pure a : Except Err α) = .ok a := rfl

/-- Structural induction over values, with membership hypotheses for the
array and object recursions. -/
def Value.inductionOn {P : Value → Prop}
    (hundef : P .undef) (hbytes : ∀ bs, P (.bytes bs)) (hint : ∀ n, P (.int n))
    (hstr : ∀ s, P (.str s)) (hbool : ∀ b, P (.bool b)) (hnull : P .null)
    (harr : ∀ xs, (∀ x ∈ xs, P x) → P (.arr xs))
    (hobj : ∀ kvs, (∀ p ∈ kvs, P p.2) → P (.obj kvs)) :
    ∀ v, P v
  | .undef => hundef
  | .bytes bs => hbytes bs
  | .int n => hint n
  | .str s => hstr s
  | .bool b => hbool b
  | .null => hnull
  | .arr xs => harr xs (fun x hx =>
      Value.inductionOn hundef hbytes hint hstr hbool hnull harr hobj x)
  | .obj kvs => hobj kvs (fun p hp =>
      Value.inductionOn hundef hbytes hint hstr hbool hnull harr hobj p.2)
termination_by v => sizeOf v
decreasing_by
  · have := List.sizeOf_lt_of_mem hx
    simp only [Value.arr.sizeOf_spec]
    omega
  · have h1 := List.sizeOf_lt_of_mem hp
    have h2 : sizeOf p.2 < sizeOf p := by
      obtain ⟨a, b⟩ := p
      simp only [Prod.mk.sizeOf_spec]
      omega
    simp only [Value.obj.sizeOf_spec]
    omega

end BFE

namespace BFE

/-! ### C5: Absent handling in sequences and mappings -/

/-- Successful array encoding: same length, and position `i` holds the
encoded element, with the nil tag substituted when that element encoded to
`undefined`. -/
theorem encodeList_ok_spec (xs : List Value) :
    ∀ ys, encodeList xs = .ok ys →
      ys.length = xs.length ∧
      ∀ i (hx : i < xs.length) (hy : i < ys.length),
        ∃ y, encode xs[i] = .ok y ∧
          ys[i] = if y.isUndef then .bytes encoder.nil else y := by
  induction xs with
  | nil =>
    intro ys h
    simp only [encodeList] at h
    obtain rfl := (Except.ok.inj h).symm
    exact ⟨rfl, fun i hx => absurd hx (by simp)⟩
  | cons x xs ih =>
    intro ys h
    simp only [encodeList] at h
    cases he : encode x with
    | error e => rw [he, bind_error_eq] at h; exact absurd h (by simp)
    | ok y =>
      rw [he, bind_ok_eq] at h
      cases hl : encodeList xs with
      | error e => rw [hl, bind_error_eq] at h; exact absurd h (by simp)
      | ok ys' =>
        rw [hl, bind_ok_eq, pure_eq] at h
        obtain rfl := (Except.ok.inj h).symm
        obtain ⟨hlen, hel⟩ := ih ys' hl
        refine ⟨by simp [hlen], ?_⟩
        intro i hx hy
        cases i with
        | zero => exact ⟨y, he, by simp⟩
        | succ j =>
          obtain ⟨y', hy', hv⟩ := hel j (by simpa using hx) (by simpa using hy)
          exact ⟨y', hy', by simpa using hv⟩

/-- Successful object encoding: keys whose value encoded to `undefined` are
dropped, all other keys are kept in order with their encoded values. -/
theorem encodeObj_ok_spec (kvs : List (String × Value)) :
    ∀ out, encodeObj kvs = .ok out →
      out = kvs.filterMap (fun p =>
        match encode p.2 with
        | .ok y => if y.isUndef then none else some (p.1, y)
        | .error _ => none) := by
  induction kvs with
  | nil =>
    intro out h
    simp only [encodeObj] at h
    obtain rfl := (Except.ok.inj h).symm
    rfl
  | cons kv kvs ih =>
    obtain ⟨k, v⟩ := kv
    intro out h
    simp only [encodeObj] at h
    cases he : encode v with
    | error e => rw [he, bind_error_eq] at h; exact absurd h (by simp)
    | ok y =>
      rw [he, bind_ok_eq] at h
      cases hl : encodeObj kvs with
      | error e => rw [hl, bind_error_eq] at h; exact absurd h (by simp)
      | ok ys =>
        rw [hl, bind_ok_eq, pure_eq] at h
        obtain rfl := (Except.ok.inj h).symm
        rw [List.filterMap_cons]
        simp only [he]
        cases hu : y.isUndef <;> simp [hu, ih ys hl]

/-- C5: encoding a sequence keeps its length, replacing each element whose
encoded result is Absent (`undefined`) with the nil tag at the same index;
encoding a mapping omits exactly the keys whose encoded value is Absent and
keeps all other keys with their encoded values. -/
theorem encode_containers_absent_policy :
    (∀ xs ys, encode (.arr xs) = .ok (.arr ys) →
      ys.length = xs.length ∧
      ∀ i (hx : i < xs.length) (hy : i < ys.length),
        ∃ y, encode xs[i] = .ok y ∧
          ys[i] = if y.isUndef then .bytes encoder.nil else y) ∧
    (∀ kvs out, encode (.obj kvs) = .ok (.obj out) →
      out = kvs.filterMap (fun p =>
        match encode p.2 with
        | .ok y => if y.isUndef then none else some (p.1, y)
        | .error _ => none)) := by
  constructor
  · intro xs ys h
    simp only [encode] at h
    cases hl : encodeList xs with
    | error e => rw [hl, map_error_eq] at h; exact absurd h (by simp)
    | ok ys' =>
      rw [hl, map_ok_eq] at h
      have hys := Value.arr.inj (Except.ok.inj h)
      subst hys
      exact encodeList_ok_spec xs ys' hl
  · intro kvs out h
    simp only [encode] at h
    cases hl : encodeObj kvs with
    | error e => rw [hl, map_error_eq] at h; exact absurd h (by simp)
    | ok out' =>
      rw [hl, map_ok_eq] at h
      have hout := Value.obj.inj (Except.ok.inj h)
      subst hout
      exact encodeObj_ok_spec kvs out' hl

/-- Witness for C5: the sequence `[undefined, 3]` encodes to `[nil tag, 3]`,
whose length matches, and the mapping `a ↦ undefined, b ↦ 3` encodes to the
mapping that keeps only `b`. -/
theorem encode_containers_absent_policy_witness :
    ([Value.bytes encoder.nil, Value.int 3] : List Value).length =
      ([Value.undef, Value.int 3] : List Value).length ∧
    ([("b", Value.int 3)] : List (String × Value)) =
      ([("a", Value.undef), ("b", Value.int 3)] : List (String × Value)).filterMap
        (fun p =>
          match encode p.2 with
          | .ok y => if y.isUndef then none else some (p.1, y)
          | .error _ => none) :=
  ⟨(encode_containers_absent_policy.1 [.undef, .int 3]
      [.bytes encoder.nil, .int 3] (by rfl)).1,
    encode_containers_absent_policy.2 [("a", .undef), ("b", .int 3)]
      [("b", .int 3)] (by rfl)⟩

end BFE

namespace BFE

/-! ### C10: idempotence of encode on its own output -/

/-- Array outputs of `encode` re-encode to themselves, given that property
pointwise for the source elements. -/
theorem encodeList_idem :
    ∀ xs, (∀ x ∈ xs, ∀ w, encode x = .ok w → encode w = .ok w) →
      ∀ ys, encodeList xs = .ok ys → encodeList ys = .ok ys := by
  intro xs
  induction xs with
  | nil =>
    intro _ ys h
    simp only [encodeList] at h
    obtain rfl := (Except.ok.inj h).symm
    rfl
  | cons x xs ih =>
    intro hP ys h
    simp only [encodeList] at h
    cases he : encode x with
    | error e => rw [he, bind_error_eq] at h; exact absurd h (by simp)
    | ok y =>
      rw [he, bind_ok_eq] at h
      cases hl : encodeList xs with
      | error e => rw [hl, bind_error_eq] at h; exact absurd h (by simp)
      | ok ys' =>
        rw [hl, bind_ok_eq, pure_eq] at h
        obtain rfl := (Except.ok.inj h).symm
        have hys' := ih (fun z hz => hP z (List.mem_cons_of_mem _ hz)) ys' hl
        have henc : encode (if y.isUndef then Value.bytes encoder.nil else y) =
            .ok (if y.isUndef then Value.bytes encoder.nil else y) := by
          cases hu : y.isUndef
          · rw [if_neg Bool.false_ne_true]
            exact hP x (List.mem_cons_self x xs) y he
          · rw [if_pos rfl]
            rfl
        have hu' : (if y.isUndef then Value.bytes encoder.nil else y).isUndef = false := by
          cases hu : y.isUndef
          · rw [if_neg Bool.false_ne_true]
            exact hu
          · rw [if_pos rfl]
            rfl
        simp only [encodeList]
        rw [henc, bind_ok_eq, hys', bind_ok_eq, pure_eq, hu', if_neg Bool.false_ne_true]

/-- Object outputs of `encode` re-encode to themselves, given that property
pointwise for the source values. -/
theorem encodeObj_idem :
    ∀ kvs, (∀ p ∈ kvs, ∀ w, encode p.2 = .ok w → encode w = .ok w) →
      ∀ out, encodeObj kvs = .ok out → encodeObj out = .ok out := by
  intro kvs
  induction kvs with
  | nil =>
    intro _ out h
    simp only [encodeObj] at h
    obtain rfl := (Except.ok.inj h).symm
    rfl
  | cons kv kvs ih =>
    obtain ⟨k, v⟩ := kv
    intro hP out h
    simp only [encodeObj] at h
    cases he : encode v with
    | error e => rw [he, bind_error_eq] at h; exact absurd h (by simp)
    | ok y =>
      rw [he, bind_ok_eq] at h
      cases hl : encodeObj kvs with
      | error e => rw [hl, bind_error_eq] at h; exact absurd h (by simp)
      | ok ys =>
        rw [hl, bind_ok_eq, pure_eq] at h
        obtain rfl := (Except.ok.inj h).symm
        have hys := ih (fun z hz => hP z (List.mem_cons_of_mem _ hz)) ys hl
        cases hu : y.isUndef with
        | true => rw [if_pos rfl]; exact hys
        | false =>
          have hy : encode y = .ok y :=
            hP (k, v) (List.mem_cons_self _ kvs) y he
          rw [if_neg Bool.false_ne_true]
          simp only [encodeObj]
          rw [hy, bind_ok_eq, hys, bind_ok_eq, pure_eq, hu, if_neg Bool.false_ne_true]

/-- C10: `encode` is idempotent on its own output — whenever `encode v`
succeeds with `w`, encoding `w` again succeeds and returns `w` unchanged. -/
theorem encode_idempotent (v : Value) :
    ∀ w, encode v = .ok w → encode w = .ok w := by
  induction v using Value.inductionOn with
  | hundef =>
    intro w h
    simp only [encode] at h
    obtain rfl := (Except.ok.inj h).symm
    rfl
  | hbytes bs =>
    intro w h
    simp only [encode] at h
    obtain rfl := (Except.ok.inj h).symm
    rfl
  | hint n =>
    intro w h
    simp only [encode] at h
    obtain rfl := (Except.ok.inj h).symm
    rfl
  | hstr s =>
    intro w h
    rcases hm : findClassicTypeFormat s TYPES with ⟨_ | t, _ | f⟩ <;>
      simp only [encode, hm] at h
    case mk.none.none | mk.none.some =>
      obtain rfl := (Except.ok.inj h).symm
      rfl
    case mk.some.some =>
      obtain rfl := (Except.ok.inj h).symm
      rfl
    case mk.some.none => exact absurd h (by simp)
  | hbool b =>
    intro w h
    simp only [encode] at h
    obtain rfl := (Except.ok.inj h).symm
    rfl
  | hnull =>
    intro w h
    simp only [encode] at h
    obtain rfl := (Except.ok.inj h).symm
    rfl
  | harr xs ihxs =>
    intro w h
    simp only [encode] at h
    cases hl : encodeList xs with
    | error e => rw [hl, map_error_eq] at h; exact absurd h (by simp)
    | ok ys =>
      rw [hl, map_ok_eq] at h
      have hw := Except.ok.inj h
      subst hw
      simp only [encode]
      rw [encodeList_idem xs ihxs ys hl, map_ok_eq]
  | hobj kvs ihkvs =>
    intro w h
    simp only [encode] at h
    cases hl : encodeObj kvs with
    | error e => rw [hl, map_error_eq] at h; exact absurd h (by simp)
    | ok out =>
      rw [hl, map_ok_eq] at h
      have hw := Except.ok.inj h
      subst hw
      simp only [encode]
      rw [encodeObj_idem kvs ihkvs out hl, map_ok_eq]

/-- Witness for C10: the string `"hi"` encodes to the tagged UTF-8 buffer,
which re-encodes to itself. -/
theorem encode_idempotent_witness :
    encode (.bytes (STRING_TF ++ utf8Encode "hi".data)) =
      .ok (.bytes (STRING_TF ++ utf8Encode "hi".data)) :=
  encode_idempotent (.str "hi") (.bytes (STRING_TF ++ utf8Encode "hi".data)) (by rfl)

end BFE

namespace BFE

/-! ### UTF-8 round trip -/

/-- Decoding picks up one encoded scalar and continues. -/
theorem utf8Decode_encodeChar (c : Char) (rest : List Nat) :
    utf8Decode (utf8EncodeChar c ++ rest) 0 0 = c :: utf8Decode rest 0 0 := by
  have hval : c.toNat < 0xd800 ∨ (0xdfff < c.toNat ∧ c.toNat < 0x110000) := c.valid
  have hofn : Char.ofNat c.toNat = c := Char.ofNat_toNat c
  set n := c.toNat with hn
  by_cases h1 : n < 0x80
  · simp only [utf8EncodeChar, ← hn, if_pos h1, List.cons_append, List.nil_append]
    rw [utf8Decode, if_pos h1, hofn]
  · by_cases h2 : n < 0x800
    · simp only [utf8EncodeChar, ← hn, if_neg h1, if_pos h2, List.cons_append,
        List.nil_append]
      rw [utf8Decode, if_neg (by omega), if_neg (by omega), if_pos (by omega)]
      rw [utf8Decode, if_pos (by constructor <;> omega)]
      have e1 : 0xC0 + n / 64 - 0xC0 = n / 64 := by omega
      have e2 : n / 64 * 64 + (0x80 + n % 64 - 0x80) = n := by omega
      rw [e1, e2, hofn]
    · by_cases h3 : n < 0x10000
      · simp only [utf8EncodeChar, ← hn, if_neg h1, if_neg h2, if_pos h3,
          List.cons_append, List.nil_append]
        rw [utf8Decode, if_neg (by omega), if_neg (by omega), if_neg (by omega),
          if_pos (by omega)]
        rw [utf8Decode, if_pos (by constructor <;> omega)]
        rw [utf8Decode, if_pos (by constructor <;> omega)]
        have e0 : 0xE0 + n / 4096 - 0xE0 = n / 4096 := by omega
        have e1 : n / 4096 * 64 + (0x80 + n / 64 % 64 - 0x80) =
            n / 4096 * 64 + n / 64 % 64 := by omega
        have e2 : (n / 4096 * 64 + n / 64 % 64) * 64 + (0x80 + n % 64 - 0x80) = n := by
          omega
        rw [e0, e1, e2, hofn]
      · simp only [utf8EncodeChar, ← hn, if_neg h1, if_neg h2, if_neg h3,
          List.cons_append, List.nil_append]
        rw [utf8Decode, if_neg (by omega), if_neg (by omega), if_neg (by omega),
          if_neg (by omega)]
        rw [utf8Decode, if_pos (by constructor <;> omega)]
        rw [utf8Decode, if_pos (by constructor <;> omega)]
        rw [utf8Decode, if_pos (by constructor <;> omega)]
        have e0 : 0xF0 + n / 262144 - 0xF0 = n / 262144 := by omega
        have e1 : n / 262144 * 64 + (0x80 + n / 4096 % 64 - 0x80) =
            n / 262144 * 64 + n / 4096 % 64 := by omega
        have e2 : (n / 262144 * 64 + n / 4096 % 64) * 64 + (0x80 + n / 64 % 64 - 0x80) =
            (n / 262144 * 64 + n / 4096 % 64) * 64 + n / 64 % 64 := by omega
        have e3 : ((n / 262144 * 64 + n / 4096 % 64) * 64 + n / 64 % 64) * 64 +
            (0x80 + n % 64 - 0x80) = n := by omega
        rw [e0, e1, e2, e3, hofn]

/-- UTF-8 decoding inverts UTF-8 encoding on every character sequence. -/
theorem utf8Decode_encode (cs : List Char) :
    utf8Decode (utf8Encode cs) 0 0 = cs := by
  induction cs with
  | nil => rfl
  | cons c cs ih => rw [utf8Encode, utf8Decode_encodeChar, ih]

end BFE

namespace BFE

/-! ### Round trips for the individual encoders -/

theorem except_bind_ok {α β : Type} (a : α) (f : α → Except Err β) :
    Except.bind (.ok a : Except Err α) f = f a := rfl

theorem except_bind_error {α β : Type} (e : Err) (f : α → Except Err β) :
    Except.bind (.error e : Except Err α) f = .error e := rfl

/-- Booleans round-trip through their three-byte encoding. -/
theorem decodeBuf_boolean (b : Bool) :
    decodeBuf (encoder.boolean b) = .ok (.bool b) := by
  cases b <;> rfl

/-- Null round-trips through the nil tag. -/
theorem decodeBuf_nil : decodeBuf encoder.nil = .ok .null := rfl

/-- Generic UTF-8 strings round-trip through the string tag. -/
theorem decodeBuf_string (s : String) :
    decodeBuf (encoder.string s) = .ok (.str s) := by
  have hrepr : encoder.string s = 6 :: 0 :: utf8Encode s.data := by
    rw [encoder.string, STRING_TF_eq]
    rfl
  rw [hrepr, decodeBuf]
  rw [if_neg (by simp), if_neg (by simp [NIL_TF_eq]),
    if_neg (by simp [BOOL_TF_eq]), if_pos (by simp [STRING_TF_eq])]
  show Except.ok (Value.str ⟨utf8Decode (utf8Encode s.data) 0 0⟩) = _
  rw [utf8Decode_encode]

/-- Decoding a msg-tagged buffer reassembles sigil, base64 payload, suffix. -/
theorem decodeBuf_msg (f : FormatDef) (hf : f = msgClassicFmt ∨ f = msgBendyFmt)
    (ds : List Nat) :
    decodeBuf (1 :: f.code :: ds) =
      .ok (.str ⟨'%' :: (b64EncodeBytes ds ++ (f.suffix.getD "").data)⟩) := by
  rcases hf with rfl | rfl <;>
    · rw [decodeBuf]
      rw [if_neg (by simp), if_neg (by simp [NIL_TF_eq]),
        if_neg (by simp [BOOL_TF_eq]), if_neg (by simp [STRING_TF_eq])]
      simp only [TYPES, List.find?, msgType, genericType, msgClassicFmt,
        msgBendyFmt, List.take, List.drop]
      rfl

/-- Classic strings with canonical base64 payloads round-trip through the
sigil-suffix encoding. -/
theorem decodeBuf_sigilSuffix (s : String) (t : TypeDef) (f : FormatDef)
    (hm : findClassicTypeFormat s TYPES = (some t, some f))
    (hc : canonicalB64 (sigilSuffixData s t f) = true) :
    decodeBuf (encoder.sigilSuffix s t f) = .ok (.str s) := by
  obtain ⟨rfl, hf, hp⟩ := findClassic_TYPES_some s t f hm
  obtain ⟨tl, htl⟩ : ∃ tl, s.data = '%' :: tl := by
    obtain ⟨u, hu⟩ := (List.isPrefixOf_iff_prefix.mp hp)
    exact ⟨u, hu.symm⟩
  have hsuffix : (f.suffix.getD "").data.isSuffixOf (s.data.drop 1) = true := by
    rw [findClassic_TYPES, if_pos hp] at hm
    have hfind := congrArg Prod.snd hm
    simp only at hfind
    rw [msg_format_find] at hfind
    split_ifs at hfind with hs1 hs2
    · obtain rfl : msgClassicFmt = f := Option.some.inj hfind
      exact hs1
    · obtain rfl : msgBendyFmt = f := Option.some.inj hfind
      exact hs2
  obtain ⟨pre, hpre⟩ : ∃ pre, s.data.drop 1 = pre ++ (f.suffix.getD "").data := by
    obtain ⟨u, hu⟩ := List.isSuffixOf_iff_suffix.mp hsuffix
    exact ⟨u, hu.symm⟩
  have hdata : sigilSuffixData s msgType f = pre := by
    have hsome : f.suffix = some (f.suffix.getD "") := by
      rcases hf with rfl | rfl <;> rfl
    rw [sigilSuffixData]
    simp only [msgType, Option.isSome_some, if_pos]
    rw [hsome]
    simp only [hpre, List.length_append]
    have : pre.length + (f.suffix.getD "").data.length -
        (f.suffix.getD "").length = pre.length := by
      have : (f.suffix.getD "").data.length = (f.suffix.getD "").length := rfl
      omega
    rw [this, List.take_left]
  have henc : encoder.sigilSuffix s msgType f =
      1 :: f.code :: base64Decode pre := by
    rw [encoder.sigilSuffix, hdata]
    rfl
  rw [henc, decodeBuf_msg f hf]
  have hcanon : b64EncodeBytes (base64Decode pre) = pre := by
    have := hc
    rw [canonicalB64, hdata] at this
    exact eq_of_beq this
  rw [hcanon]
  have : '%' :: (pre ++ (f.suffix.getD "").data) = s.data := by
    rw [← hpre, htl]
    rfl
  rw [this]

end BFE

namespace BFE

/-! ### C1: the round trip on the good value domain -/

/-- Arrays of good values encode and then decode back, elementwise. -/
theorem encodeList_decodeList (xs : List Value)
    (hP : ∀ x ∈ xs, goodB x = true → roundTrip x = .ok x)
    (hg : goodListB xs = true) :
    ∃ ys, encodeList xs = .ok ys ∧ decodeList ys = .ok xs := by
  induction xs with
  | nil => exact ⟨[], rfl, rfl⟩
  | cons x xs ih =>
    rw [goodListB, Bool.and_eq_true] at hg
    obtain ⟨hgx, hgxs⟩ := hg
    have hrt := hP x (List.mem_cons_self x xs) hgx
    rw [roundTrip] at hrt
    cases he : encode x with
    | error e => rw [he, except_bind_error] at hrt; exact absurd hrt (by simp)
    | ok y =>
      rw [he, except_bind_ok] at hrt
      have hyu : y.isUndef = false := by
        cases y <;> first
          | rfl
          | exact absurd hrt (by simp [decode])
      obtain ⟨ys, hys, hdec⟩ :=
        ih (fun z hz hgz => hP z (List.mem_cons_of_mem _ hz) hgz) hgxs
      refine ⟨y :: ys, ?_, ?_⟩
      · simp only [encodeList]
        rw [he, bind_ok_eq, hys, bind_ok_eq, pure_eq, hyu,
          if_neg Bool.false_ne_true]
      · simp only [decodeList]
        rw [hrt, bind_ok_eq, hdec, bind_ok_eq, pure_eq]

/-- Objects with good values encode and then decode back, entrywise. -/
theorem encodeObj_decodeObj (kvs : List (String × Value))
    (hP : ∀ p ∈ kvs, goodB p.2 = true → roundTrip p.2 = .ok p.2)
    (hg : goodObjB kvs = true) :
    ∃ out, encodeObj kvs = .ok out ∧ decodeObj out = .ok kvs := by
  induction kvs with
  | nil => exact ⟨[], rfl, rfl⟩
  | cons kv kvs ih =>
    obtain ⟨k, v⟩ := kv
    rw [goodObjB, Bool.and_eq_true] at hg
    obtain ⟨hgv, hgkvs⟩ := hg
    have hrt := hP (k, v) (List.mem_cons_self _ kvs) hgv
    rw [roundTrip] at hrt
    cases he : encode v with
    | error e => rw [he, except_bind_error] at hrt; exact absurd hrt (by simp)
    | ok y =>
      rw [he, except_bind_ok] at hrt
      have hyu : y.isUndef = false := by
        cases y <;> first
          | rfl
          | exact absurd hrt (by simp [decode])
      obtain ⟨out, hout, hdec⟩ :=
        ih (fun z hz hgz => hP z (List.mem_cons_of_mem _ hz) hgz) hgkvs
      refine ⟨(k, y) :: out, ?_, ?_⟩
      · simp only [encodeObj]
        rw [he, bind_ok_eq, hout, bind_ok_eq, pure_eq, hyu,
          if_neg Bool.false_ne_true]
      · simp only [decodeObj]
        rw [hrt, bind_ok_eq, hdec, bind_ok_eq, pure_eq]

/-- C1 (amended): `decode(encode(v)) == v` for every value built from
integers, booleans, null, classic sigil+suffix strings whose extracted
payload is canonical base64, unrecognized strings, and arbitrarily nested
sequences/mappings of these.  The claim's original domain also admitted raw
bytes and non-canonical classic strings; both fail, see the
counterexample. -/
theorem roundTrip_on_good_values : ∀ v, goodB v = true → roundTrip v = .ok v := by
  intro v
  induction v using Value.inductionOn with
  | hundef => intro h; exact absurd h (by simp [goodB])
  | hbytes bs => intro h; exact absurd h (by simp [goodB])
  | hint n => intro _; rfl
  | hbool b => intro _; cases b <;> rfl
  | hnull => intro _; rfl
  | hstr s =>
    intro h
    rcases hm : findClassicTypeFormat s TYPES with ⟨oty, ofo⟩
    rcases oty with _ | t
    · rw [roundTrip]
      simp only [encode, hm]
      rw [except_bind_ok, decode_bytes, decodeBuf_string]
    · rcases ofo with _ | f
      · exact absurd h (by simp [goodB, hm])
      · have hc : canonicalB64 (sigilSuffixData s t f) = true := by
          simpa [goodB, hm] using h
        rw [roundTrip]
        simp only [encode, hm]
        rw [except_bind_ok, decode_bytes, decodeBuf_sigilSuffix s t f hm hc]
  | harr xs ihxs =>
    intro h
    have hg : goodListB xs = true := by simpa [goodB] using h
    obtain ⟨ys, hys, hdec⟩ := encodeList_decodeList xs ihxs hg
    rw [roundTrip]
    simp only [encode]
    rw [hys, map_ok_eq, except_bind_ok]
    simp only [decode]
    rw [hdec, map_ok_eq]
  | hobj kvs ihkvs =>
    intro h
    have hg : goodObjB kvs = true := by simpa [goodB] using h
    obtain ⟨out, hout, hdec⟩ := encodeObj_decodeObj kvs ihkvs hg
    rw [roundTrip]
    simp only [encode]
    rw [hout, map_ok_eq, except_bind_ok]
    simp only [decode]
    rw [hdec, map_ok_eq]

/-- Counterexample to C1 as stated: raw bytes do not round-trip (`encode`
passes the one-byte buffer `[0]` through unchanged and `decode` rejects it
as a malformed tag), and a classic string whose payload `A` is not canonical
base64 comes back altered (`%A.sha256` decodes to `%.sha256`). -/
theorem roundTrip_claim_counterexample :
    roundTrip (.bytes [0]) = .error .missingTypeFormatFields ∧
    roundTrip (.str "%A.sha256") = .ok (.str "%.sha256") ∧
    ("%.sha256" : String) ≠ "%A.sha256" :=
  ⟨rfl, rfl, by decide⟩

/-- Witness for C1 (amended) at a nested value exercising every good leaf
kind: a canonical classic string, an integer, a boolean, null, a plain
string, and a nested mapping. -/
theorem roundTrip_on_good_values_witness :
    roundTrip (.arr [.str "%AA==.sha256", .int 5, .bool true, .null,
        .str "hello", .obj [("a", .null)]]) =
      .ok (.arr [.str "%AA==.sha256", .int 5, .bool true, .null,
        .str "hello", .obj [("a", .null)]]) :=
  roundTrip_on_good_values
    (.arr [.str "%AA==.sha256", .int 5, .bool true, .null,
      .str "hello", .obj [("a", .null)]]) (by rfl)

end BFE
